import Mathlib

/-!
# Verification of the oranges-juice feature-engineering script

Shallow embedding of `contrib/tsperf/energy_utils/feature_engineering/feature_engineering.py`
and proofs about it.

The script is a linear pandas pipeline.  We embed it at two levels:

* a column-oriented `DataFrame` model (a list of named columns, each a list of
  optional rationals, `none` standing for pandas `NaN`) for the two utility
  functions `lagged_features` and `moving_averages`;
* a row-oriented model of the per-round pipeline (`mergeRight`, grid
  expansion, derived price columns, sorting, forward/backward fill) for the
  `__main__` block.

Floating point is modelled by `ℚ`: every arithmetic operation the claims
touch (sums of at most a few dozen values, division by small constants)
is exact in IEEE double for the magnitudes involved, so `ℚ` is faithful.
-/

namespace OJ

/-- A pandas cell: a value or `NaN`. -/
abbrev Cell : Type := Option ℚ

/-- A pandas data frame, column-oriented: a list of (column name, column
values) pairs, in column order. -/
structure DataFrame where
  cols : List (String × List Cell)
deriving DecidableEq

/-- `df.shape[0]`: the number of rows (length of the first column; pandas
frames have all columns the same length). -/
def DataFrame.nrows (df : DataFrame) : ℕ :=
  ((df.cols.head?).map (fun c => c.2.length)).getD 0

/-- `series.shift(k)` for `k ≥ 0`: values move down `k` positions, the first
`k` cells become `NaN`, the last `k` values fall off; length is preserved. -/
def shiftCol (k : ℕ) (v : List Cell) : List Cell :=
  List.replicate (min k v.length) none ++ v.take (v.length - k)

/-- `df.shift(k)`: shift every column. -/
def DataFrame.shift (df : DataFrame) (k : ℕ) : DataFrame :=
  ⟨df.cols.map (fun c => (c.1, shiftCol k c.2))⟩

/-- `df.columns = [f(x) for x in df.columns]`: rename every column. -/
def renameWith (f : String → String) (df : DataFrame) : DataFrame :=
  ⟨df.cols.map (fun c => (f c.1, c.2))⟩

/-- `pd.concat(df_list, axis=1)` for frames over a shared index: column-wise
concatenation in list order. -/
def concatAxis1 (dfs : List DataFrame) : DataFrame :=
  ⟨(dfs.map DataFrame.cols).flatten⟩

/-- `lagged_features(df, lags)` from the source:

    df_list = []
    for lag in lags:
        df_shifted = df.shift(lag)
        df_shifted.columns = [x + "_lag" + str(lag) for x in df_shifted.columns]
        df_list.append(df_shifted)
    fea = pd.concat(df_list, axis=1)

`pd.concat` raises `ValueError: No objects to concatenate` on an empty list,
which we model by returning `none`. -/
def lagged_features (df : DataFrame) (lags : List ℕ) : Option DataFrame :=
  let df_list := lags.map
    (fun lag => renameWith (fun x => x ++ "_lag" ++ toString lag) (df.shift lag))
  if df_list.isEmpty then none else some (concatAxis1 df_list)

/-- One cell of `series.rolling(min_periods=1, center=False, window=w).mean()`:
the mean of the non-`NaN` values among the trailing window `[i+1-w, i]`,
`NaN` when the window holds no non-`NaN` value (`min_periods=1`). -/
def rollingMeanCell (window : ℕ) (v : List Cell) (i : ℕ) : Cell :=
  let vals := ((v.take (i + 1)).drop (i + 1 - window)).filterMap id
  if vals.isEmpty then none else some (vals.sum / (vals.length : ℚ))

/-- `series.rolling(min_periods=1, center=False, window=w).mean()`. -/
def rollingMeanCol (window : ℕ) (v : List Cell) : List Cell :=
  (List.range v.length).map (rollingMeanCell window v)

/-- `moving_averages(df, start_step, window_size=None)` from the source:

    if window_size is None:
        window_size = df.shape[0]
    fea = df.shift(start_step).rolling(min_periods=1, center=False, window=window_size).mean()
    fea.columns = fea.columns + "_mean" + str(window_size)
-/
def moving_averages (df : DataFrame) (start_step : ℕ) (window_size : Option ℕ) :
    DataFrame :=
  let w := window_size.getD df.nrows
  renameWith (fun x => x ++ "_mean" ++ toString w)
    ⟨(df.shift start_step).cols.map (fun c => (c.1, rollingMeanCol w c.2))⟩

/-- Spec-side definition (4.3 of the spec, "a cumulative average"): the mean
of the non-`NaN` values among *all* cells up to and including position `i`. -/
def cumMeanAt (v : List Cell) (i : ℕ) : Cell :=
  let vals := (v.take (i + 1)).filterMap id
  if vals.isEmpty then none else some (vals.sum / (vals.length : ℚ))

/-- A three-row, one-column frame used to instantiate the lag-feature claims. -/
def dfC4 : DataFrame := ⟨[("move", [some 1, some 2, some 3])]⟩

/-- A one-row, one-column frame used to instantiate the window-1 claim. -/
def dfC6 : DataFrame := ⟨[("move", [some 1])]⟩

/-- A three-row, one-column frame (with a `NaN`) used to instantiate the
default-window claim. -/
def dfC8 : DataFrame := ⟨[("move", [some 1, none, some 3])]⟩

/-! ## Calendar model for `week_of_month`

`week_of_month` reads `dt.day` and `dt.replace(day=1).weekday()`.  We model
Python `datetime.date` faithfully on the proleptic Gregorian calendar:
`toOrdinal` is `date.toordinal()` (day 1 = 1 Jan of year 1) and `weekday` is
`date.weekday()` (Monday = 0).  Python dates have year ≥ 1, so the integer
divisions below only ever see non-negative operands, where Lean's `Int`
division agrees with Python's floor division. -/

/-- Gregorian leap-year rule (`calendar.isleap`). -/
def isLeapYear (y : ℤ) : Bool := (y % 4 == 0 && y % 100 != 0) || (y % 400 == 0)

/-- Lengths of the twelve months of year `y`. -/
def monthDays (y : ℤ) : List ℕ :=
  [31, if isLeapYear y then 29 else 28, 31, 30, 31, 30, 31, 31, 30, 31, 30, 31]

/-- Number of days in month `m` (1-based) of year `y`. -/
def daysInMonth (y : ℤ) (m : ℕ) : ℕ := (monthDays y).getD (m - 1) 0

/-- A Python `datetime.date` value. -/
structure PyDate where
  year : ℤ
  month : ℕ
  day : ℕ
deriving DecidableEq

/-- The dates `datetime.date` accepts (`datetime.MINYEAR = 1`). -/
def PyDate.Valid (d : PyDate) : Prop :=
  1 ≤ d.year ∧ 1 ≤ d.month ∧ d.month ≤ 12 ∧ 1 ≤ d.day ∧ d.day ≤ daysInMonth d.year d.month

instance (d : PyDate) : Decidable d.Valid := by
  unfold PyDate.Valid
  infer_instance

/-- Days of year `y` strictly before month `m` (1-based). -/
def daysBeforeMonth (y : ℤ) (m : ℕ) : ℕ := ((monthDays y).take (m - 1)).sum

/-- `date.toordinal()`: days since 31 Dec of year 0 (1 Jan year 1 ↦ 1). -/
def toOrdinal (d : PyDate) : ℤ :=
  365 * (d.year - 1) + (d.year - 1) / 4 - (d.year - 1) / 100 + (d.year - 1) / 400
    + (daysBeforeMonth d.year d.month : ℤ) + (d.day : ℤ)

/-- `date.weekday()`: Monday = 0 … Sunday = 6. -/
def PyDate.weekday (d : PyDate) : ℕ := ((toOrdinal d + 6) % 7).toNat

/-- `week_of_month(dt)` from the source:

    first_day = dt.replace(day=1)
    dom = dt.day
    adjusted_dom = dom + first_day.weekday()
    wom = int(ceil(adjusted_dom / 7.0))

`adjusted_dom ≤ 37`, so the float division and ceiling are exact and
`int(ceil(n / 7.0)) = ⌈n/7⌉ = (n + 6) / 7` in natural-number arithmetic. -/
def week_of_month (dt : PyDate) : ℕ :=
  let first_day : PyDate := { dt with day := 1 }
  let dom := dt.day
  let adjusted_dom := dom + first_day.weekday
  (adjusted_dom + 6) / 7

/-! ## Row-oriented model of the per-round pipeline (`__main__`) -/

/-- One row of `train_df` after the `move` computation and the column
selection `train_df[["store", "brand", "week", "profit", "move", "logmove"]]`.
`move` carries the already-derived value of `round(math.exp(logmove))`; the
transcendental `exp` itself is outside every claim. -/
structure TrainRow where
  store : ℤ
  brand : ℤ
  week : ℤ
  profit : ℚ
  move : ℚ
  logmove : ℚ
deriving DecidableEq

/-- One row of `aux_df`: keys, the eleven price columns `price1..price11`
(as one list, `prices[0]` being `price1`), `deal` and `feat`. -/
structure AuxRow where
  store : ℤ
  brand : ℤ
  week : ℤ
  prices : List ℚ
  deal : ℚ
  feat : ℚ
deriving DecidableEq

/-- One row of the merged frame `all_df`.  Non-key columns are optional,
`none` standing for pandas `NaN`.  The eleven price columns are grouped with
`deal`/`feat` provenance: the merges null them out together, so a row either
has all aux values or none of them. -/
structure MergedRow where
  store : ℤ
  brand : ℤ
  week : ℤ
  profit : Option ℚ
  move : Option ℚ
  logmove : Option ℚ
  prices : Option (List ℚ)
  deal : Option ℚ
  feat : Option ℚ
deriving DecidableEq

def trainKey (t : TrainRow) : ℤ × ℤ × ℤ := (t.store, t.brand, t.week)

def auxKey (a : AuxRow) : ℤ × ℤ × ℤ := (a.store, a.brand, a.week)

def keyOf (r : MergedRow) : ℤ × ℤ × ℤ := (r.store, r.brand, r.week)

/-- A merged row whose `(store, brand, week)` key matched in both frames. -/
def matchRow (t : TrainRow) (a : AuxRow) : MergedRow :=
  ⟨a.store, a.brand, a.week, some t.profit, some t.move, some t.logmove,
    some a.prices, some a.deal, some a.feat⟩

/-- A merged row for an aux key with no train match: train columns `NaN`. -/
def unmatchedAux (a : AuxRow) : MergedRow :=
  ⟨a.store, a.brand, a.week, none, none, none, some a.prices, some a.deal, some a.feat⟩

/-- `pd.merge(train_df, aux_df, how="right", on=["store", "brand", "week"])`:
one block of output rows per aux row, in aux order; within a block, the
matching train rows in train order, or a single row with null train columns
when no train row matches. -/
def mergeRight (train : List TrainRow) (aux : List AuxRow) : List MergedRow :=
  aux.flatMap fun a =>
    match train.filter (fun t => decide (trainKey t = auxKey a)) with
    | [] => [unmatchedAux a]
    | t :: ts => (t :: ts).map (fun t => matchRow t a)

/-- The single merged row an aux row produces when train keys are unique. -/
def mergeRowFn (train : List TrainRow) (a : AuxRow) : MergedRow :=
  match train.filter (fun t => decide (trainKey t = auxKey a)) with
  | [] => unmatchedAux a
  | t :: _ => matchRow t a

/-- `series.unique()`: distinct values in order of first appearance. -/
def uniqueAux : List ℤ → List ℤ → List ℤ
  | [], _ => []
  | a :: l, seen => if a ∈ seen then uniqueAux l seen else a :: uniqueAux l (a :: seen)

def uniqueList (l : List ℤ) : List ℤ := uniqueAux l []

/-- `range(startWeek, endWeek + 1)` as a list of integers
(`week_list = range(bs.TRAIN_START_WEEK, bs.TEST_END_WEEK_LIST[r - 1] + 1)`). -/
def weekRange (startWeek endWeek : ℤ) : List ℤ :=
  (List.range (endWeek + 1 - startWeek).toNat).map (fun i : ℕ => startWeek + (i : ℤ))

/-- `itertools.product(store_list, brand_list, week_list)`. -/
def itemList (ss bs ws : List ℤ) : List (ℤ × ℤ × ℤ) :=
  ss.flatMap fun s => bs.flatMap fun b => ws.map fun w => (s, b, w)

/-- The all-null row a grid cell gets when no merged row matches it. -/
def emptyRow (s b w : ℤ) : MergedRow := ⟨s, b, w, none, none, none, none, none, none⟩

/-- `item_df.merge(all_df, how="left", on=["store", "brand", "week"])`:
for each grid cell in grid order, the matching merged rows in their order,
or one all-null row when there is no match. -/
def gridExpand (grid : List (ℤ × ℤ × ℤ)) (all : List MergedRow) : List MergedRow :=
  grid.flatMap fun c =>
    match all.filter (fun r => decide (keyOf r = c)) with
    | [] => [emptyRow c.1 c.2.1 c.2.2]
    | r :: rs => r :: rs

/-- The single row a grid cell produces when merged keys are unique. -/
def cellRow (all : List MergedRow) (c : ℤ × ℤ × ℤ) : MergedRow :=
  match all.filter (fun r => decide (keyOf r = c)) with
  | [] => emptyRow c.1 c.2.1 c.2.2
  | r :: _ => r

/-- `store_list = all_df["store"].unique()`. -/
def storesOf (all : List MergedRow) : List ℤ := uniqueList (all.map (·.store))

/-- `brand_list = all_df["brand"].unique()`. -/
def brandsOf (all : List MergedRow) : List ℤ := uniqueList (all.map (·.brand))

/-- The full `(store, brand, week)` grid of a round (`item_list`). -/
def gridOf (train : List TrainRow) (aux : List AuxRow) (sw ew : ℤ) : List (ℤ × ℤ × ℤ) :=
  itemList (storesOf (mergeRight train aux)) (brandsOf (mergeRight train aux))
    (weekRange sw ew)

/-- Lines 80–91 of the script: right-merge, then left-join onto the grid. -/
def expandRound (train : List TrainRow) (aux : List AuxRow) (sw ew : ℤ) : List MergedRow :=
  gridExpand (gridOf train aux sw ew) (mergeRight train aux)

/-- The `price_cols` list of the script. -/
def priceColNames : List String :=
  ["price1", "price2", "price3", "price4", "price5", "price6", "price7", "price8",
    "price9", "price10", "price11"]

/-- `x.loc["price" + str(int(x.loc["brand"]))]`: the price column selected by
the row's brand number (`price1` is index 0); `NaN` when the row's aux
columns are null. -/
def rowPrice (r : MergedRow) : Option ℚ :=
  r.prices.bind fun ps => ps[(r.brand - 1).toNat]?

/-- `all_df[price_cols].sum(axis=1)`: pandas sums with `skipna=True`, so a
row whose price columns are all null sums to `0`. -/
def rowPriceSum (r : MergedRow) : ℚ := (r.prices.getD []).sum

/-- `all_df[price_cols].sum(axis=1).apply(lambda x: x / len(price_cols))`. -/
def rowAvgPrice (r : MergedRow) : ℚ := rowPriceSum r / (priceColNames.length : ℚ)

/-- `all_df["price"] / all_df["avg_price"]`: `NaN` numerator propagates. -/
def rowPriceRatioVal (r : MergedRow) : Option ℚ :=
  (rowPrice r).map (fun p => p / rowAvgPrice r)

/-- Spec-side reading of "the average of the eleven price columns": the mean
of the row's price values, undefined (`none`) when the columns are null. -/
def specAvgPrice (r : MergedRow) : Option ℚ :=
  r.prices.map (fun ps => ps.sum / (ps.length : ℚ))

/-- Lexicographic `(store, brand, week)` comparison for
`all_df.sort_values(by=["store", "brand", "week"])`. -/
def keyLE (r s : MergedRow) : Bool :=
  decide (r.store < s.store ∨ (r.store = s.store ∧ (r.brand < s.brand
    ∨ (r.brand = s.brand ∧ r.week ≤ s.week))))

def insertRow (r : MergedRow) : List MergedRow → List MergedRow
  | [] => [r]
  | s :: l => if keyLE r s then r :: s :: l else s :: insertRow r l

/-- `all_df.sort_values(by=["store", "brand", "week"])` as an insertion sort;
on the tables the claims touch the keys are distinct, so the sorted order is
unique and the sort algorithm is irrelevant. -/
def sortRows (l : List MergedRow) : List MergedRow := l.foldr insertRow []

/-- `series.fillna(method="ffill")` with running last-seen value `acc`. -/
def ffillAux : List (Option ℚ) → Option ℚ → List (Option ℚ)
  | [], _ => []
  | x :: l, acc => (x.or acc) :: ffillAux l (x.or acc)

def ffillCol (l : List (Option ℚ)) : List (Option ℚ) := ffillAux l none

/-- `series.fillna(method="bfill")`: forward fill of the reversal, reversed. -/
def bfillCol (l : List (Option ℚ)) : List (Option ℚ) := (ffillAux l.reverse none).reverse

/-- Lines 126–129 of the script restricted to the `move` column:
`x.fillna(method="ffill").fillna(method="bfill")`.  The fill is applied to
the whole sorted column at once; the `groupby` happens only afterwards (for
the lag and moving-average features). -/
def fillMove (l : List (Option ℚ)) : List (Option ℚ) := bfillCol (ffillCol l)

def sortedRound (train : List TrainRow) (aux : List AuxRow) (sw ew : ℤ) : List MergedRow :=
  sortRows (expandRound train aux sw ew)

/-- The filled `move` column (`filled_sales["move"]`). -/
def filledMoveOf (train : List TrainRow) (aux : List AuxRow) (sw ew : ℤ) : List (Option ℚ) :=
  fillMove ((sortedRound train aux sw ew).map (·.move))

/-- Last non-`NaN` value of a column segment. -/
def lastSome (l : List (Option ℚ)) : Option ℚ := (l.filterMap id).getLast?

/-- First non-`NaN` value of a column segment. -/
def firstSome (l : List (Option ℚ)) : Option ℚ := (l.filterMap id).head?

/-! ### Column bookkeeping for the written CSV -/

/-- Column order of `pd.merge(train_df, aux_df, ...)` and of the grid merge:
the left frame's columns followed by the right frame's non-key columns. -/
def mergedColsList : List String :=
  ["store", "brand", "week", "profit", "move", "logmove"] ++ priceColNames ++ ["deal", "feat"]

/-- The columns the script assigns, in assignment order (lines 96–119):
`price`, `avg_price`, `price_ratio`, then the "date time related features"
`week_start`, `week_of_month`, `year`, `month`, `day`. -/
def assignedCols : List String :=
  ["price", "avg_price", "price_ratio", "week_start", "week_of_month", "year", "month", "day"]

/-- The lag-feature column names, read off from `lagged_features` applied to
the single `move` column with `lags = [2, 3, 4]` as in the script. -/
def lagOutCols : List String :=
  ((lagged_features ⟨[("move", [])]⟩ [2, 3, 4]).map (fun d => d.cols.map Prod.fst)).getD []

/-- The moving-average column names, read off from `moving_averages` applied
to the single `move` column with `start_step=2, window_size=10`. -/
def maOutCols : List String :=
  (moving_averages ⟨[("move", [])]⟩ 2 (some 10)).cols.map Prod.fst

/-- The columns of the frame written by `all_df.to_csv`, in order. -/
def outputColumns : List String := mergedColsList ++ assignedCols ++ lagOutCols ++ maOutCols

/-- The column set asserted by the claim (spec §6). -/
def claimedColumns : List String :=
  ["store", "brand", "week", "profit", "move", "logmove"] ++ priceColNames
    ++ ["deal", "feat", "price", "avg_price", "price_ratio", "week_start", "week_of_month",
        "move_lag2", "move_lag3", "move_lag4", "move_mean10"]

/-! ### Concrete round data used to instantiate the pipeline claims -/

/-- Eleven unit prices, the aux price columns of the example rows. -/
def onesPrices : List ℚ := List.replicate 11 1

/-- C1's example: two stores, one brand, sales only at week 2. -/
def trainC1 : List TrainRow := [⟨1, 1, 2, 10, 40, 4⟩, ⟨2, 1, 2, 9, 50, 4⟩]

/-- C1's example aux data: all six grid cells present. -/
def auxC1 : List AuxRow :=
  [⟨1, 1, 1, onesPrices, 0, 0⟩, ⟨1, 1, 2, onesPrices, 0, 0⟩, ⟨1, 1, 3, onesPrices, 0, 0⟩,
    ⟨2, 1, 1, onesPrices, 0, 0⟩, ⟨2, 1, 2, onesPrices, 0, 0⟩, ⟨2, 1, 3, onesPrices, 0, 0⟩]

/-- C2's example: store 1 has one sales row, store 2 has none at all. -/
def trainC2 : List TrainRow := [⟨1, 1, 1, 0, 5, 2⟩]

def auxC2 : List AuxRow := [⟨1, 1, 1, onesPrices, 0, 0⟩, ⟨2, 1, 1, onesPrices, 0, 0⟩]

/-- C7's example: one aux row at week 1, week range 1..2, so the grid cell
`(1, 1, 2)` has no aux data at all. -/
def trainC7 : List TrainRow := []

def auxC7 : List AuxRow := [⟨1, 1, 1, onesPrices, 0, 0⟩]

end OJ

namespace OJ

theorem length_shiftCol (k : ℕ) (v : List Cell) : (shiftCol k v).length = v.length := by
  simp only [shiftCol, List.length_append, List.length_replicate, List.length_take]
  omega

theorem getElem?_shiftCol (k : ℕ) (v : List Cell) (i : ℕ) (hi : i < v.length) :
    (shiftCol k v)[i]? = if i < k then some none else v[i - k]? := by
  by_cases h : i < k
  · rw [if_pos h]
    have hmin : i < min k v.length := lt_min h hi
    rw [shiftCol, List.getElem?_append_left (by simpa using hmin)]
    simp [List.getElem?_replicate, hmin]
  · rw [if_neg h]
    push_neg at h
    have hk : min k v.length = k := min_eq_left (h.trans hi.le)
    rw [shiftCol, List.getElem?_append_right (by simpa [hk] using h)]
    rw [List.length_replicate, hk, List.getElem?_take_of_lt (by omega)]

theorem lagged_features_nil (df : DataFrame) : lagged_features df [] = none := rfl

theorem lagged_features_of_ne_nil (df : DataFrame) (lags : List ℕ) (hne : lags ≠ []) :
    lagged_features df lags
      = some ⟨(lags.map (fun lag =>
          df.cols.map (fun c => (c.1 ++ "_lag" ++ toString lag, shiftCol lag c.2)))).flatten⟩ := by
  cases lags with
  | nil => exact absurd rfl hne
  | cons l ls =>
    simp [lagged_features, concatAxis1, renameWith, DataFrame.shift, List.map_map,
      Function.comp_def]

theorem moving_averages_cols (df : DataFrame) (s : ℕ) (wo : Option ℕ) :
    (moving_averages df s wo).cols
      = df.cols.map (fun c =>
          (c.1 ++ "_mean" ++ toString (wo.getD df.nrows),
            rollingMeanCol (wo.getD df.nrows) (shiftCol s c.2))) := by
  simp [moving_averages, renameWith, DataFrame.shift, List.map_map, Function.comp]

theorem length_rollingMeanCol (w : ℕ) (v : List Cell) :
    (rollingMeanCol w v).length = v.length := by
  simp [rollingMeanCol]

theorem shiftCol_zero (v : List Cell) : shiftCol 0 v = v := by
  simp [shiftCol]

theorem rollingMeanCol_one (v : List Cell) : rollingMeanCol 1 v = v := by
  apply List.ext_getElem?
  intro i
  by_cases hi : i < v.length
  · rw [rollingMeanCol, List.getElem?_map, List.getElem?_range hi]
    have hdrop : v.drop i = v[i] :: v.drop (i + 1) := List.drop_eq_getElem_cons hi
    have hwin : (v.take (i + 1)).drop i = [v[i]] := by
      rw [List.drop_take]
      rw [show i + 1 - i = 1 by omega]
      rw [hdrop]
      rfl
    rw [Option.map_some']
    rw [rollingMeanCell]
    simp only [Nat.add_sub_cancel, hwin]
    cases hv : v[i] with
    | none => simp [List.getElem?_eq_getElem hi, hv]
    | some x =>
      simp only [List.filterMap_cons, id_eq, List.filterMap_nil, List.isEmpty_cons,
        Bool.false_eq_true, if_false, List.sum_cons, List.sum_nil, add_zero,
        List.length_cons, List.length_nil]
      rw [List.getElem?_eq_getElem hi, hv]
      norm_num
  · rw [rollingMeanCol, List.getElem?_map,
      List.getElem?_eq_none (by simp only [List.length_range]; omega)]
    rw [List.getElem?_eq_none (by omega)]
    rfl

theorem nrows_flatten_map (lags : List ℕ) (df : DataFrame) (hne : lags ≠ []) :
    (DataFrame.mk ((lags.map (fun lag =>
      df.cols.map (fun c => (c.1 ++ "_lag" ++ toString lag, shiftCol lag c.2)))).flatten)).nrows
      = df.nrows := by
  cases lags with
  | nil => exact absurd rfl hne
  | cons l ls =>
    cases hc : df.cols with
    | nil =>
      have hflat : ∀ ms : List ℕ, ((ms.map (fun lag =>
          List.map (fun c => (c.1 ++ "_lag" ++ toString lag, shiftCol lag c.2))
            ([] : List (String × List Cell)))).flatten)
          = ([] : List (String × List Cell)) := by
        intro ms
        induction ms with
        | nil => rfl
        | cons m ms ih => simp [ih]
      rw [hflat]
      simp [DataFrame.nrows, hc]
    | cons c cs =>
      simp [DataFrame.nrows, hc, length_shiftCol]

theorem nrows_moving_averages (df : DataFrame) (s : ℕ) (wo : Option ℕ) :
    (moving_averages df s wo).nrows = df.nrows := by
  rw [DataFrame.nrows, moving_averages_cols]
  cases hc : df.cols with
  | nil => simp [DataFrame.nrows, hc]
  | cons c cs =>
    simp [DataFrame.nrows, hc, length_rollingMeanCol, length_shiftCol]

/-- **C4.** For a single lag `k ≥ 0`, `lagged_features(df, [k])` shifts every
value down by exactly `k` rows (row `i` of the result holds row `i - k` of the
input), the first `k` rows are null, and each output column is the input
column's name with `_lag<k>` appended; for a list of lags the per-lag results
are concatenated column-wise in list order. -/
theorem C4_lagged_shift (df : DataFrame) (k : ℕ) (lags : List ℕ) (hne : lags ≠ []) :
    lagged_features df [k]
      = some ⟨df.cols.map (fun c => (c.1 ++ "_lag" ++ toString k, shiftCol k c.2))⟩
  ∧ (∀ v : List Cell, ∀ i : ℕ, i < v.length →
      (shiftCol k v)[i]? = if i < k then some none else v[i - k]?)
  ∧ lagged_features df lags
      = some ⟨(lags.map (fun lag =>
          df.cols.map (fun c => (c.1 ++ "_lag" ++ toString lag, shiftCol lag c.2)))).flatten⟩ := by
  refine ⟨?_, fun v i hi => getElem?_shiftCol k v i hi, lagged_features_of_ne_nil df lags hne⟩
  rw [lagged_features_of_ne_nil df [k] (by simp)]
  simp

theorem C4_witness :
    (([2, 3] : List ℕ) ≠ [])
  ∧ lagged_features dfC4 [2]
      = some ⟨dfC4.cols.map (fun c => (c.1 ++ "_lag" ++ toString 2, shiftCol 2 c.2))⟩
  ∧ (shiftCol 2 [some 1, some 2, some 3])[0]? = some none
  ∧ (shiftCol 2 [some 1, some 2, some 3])[2]? = some (some 1)
  ∧ lagged_features dfC4 [2, 3]
      = some ⟨([2, 3].map (fun lag =>
          dfC4.cols.map (fun c => (c.1 ++ "_lag" ++ toString lag, shiftCol lag c.2)))).flatten⟩ := by
  have h := C4_lagged_shift dfC4 2 [2, 3] (by decide)
  refine ⟨by decide, h.1, ?_, ?_, h.2.2⟩
  · have h0 := h.2.1 [some 1, some 2, some 3] 0 (by decide)
    simpa using h0
  · have h2 := h.2.1 [some 1, some 2, some 3] 2 (by decide)
    simpa using h2

/-- **C9.** `lagged_features(df, [])` fails (`pd.concat` of zero frames raises
`ValueError`, modelled by `none`) rather than returning an empty feature
table; with a non-empty lag list it succeeds. -/
theorem C9_empty_lag_list (df : DataFrame) (lags : List ℕ) :
    lagged_features df [] = none ∧ (lags ≠ [] → (lagged_features df lags).isSome) := by
  refine ⟨lagged_features_nil df, fun hne => ?_⟩
  rw [lagged_features_of_ne_nil df lags hne]
  rfl

theorem C9_witness :
    (([5] : List ℕ) ≠ []) ∧ lagged_features dfC4 [] = none
  ∧ (lagged_features dfC4 [5]).isSome :=
  ⟨by decide, (C9_empty_lag_list dfC4 [5]).1, (C9_empty_lag_list dfC4 [5]).2 (by decide)⟩

/-- **C10.** With a non-empty lag list, `lagged_features` returns a table with
exactly as many rows as its input, and `moving_averages` with a positive
window likewise; the input frame itself is untouched (in the source both
functions operate on fresh frames returned by `df.shift`, so the embedding is
a pure function of `df`). -/
theorem C10_preserves_rows (df : DataFrame) (lags : List ℕ) (s w : ℕ)
    (hne : lags ≠ []) (_hw : 0 < w) :
    (∃ out, lagged_features df lags = some out ∧ out.nrows = df.nrows)
  ∧ (moving_averages df s (some w)).nrows = df.nrows :=
  ⟨⟨_, lagged_features_of_ne_nil df lags hne, nrows_flatten_map lags df hne⟩,
    nrows_moving_averages df s (some w)⟩

theorem C10_witness :
    (([2, 3, 4] : List ℕ) ≠ []) ∧ (0 < 10)
  ∧ ((∃ out, lagged_features dfC4 [2, 3, 4] = some out ∧ out.nrows = dfC4.nrows)
     ∧ (moving_averages dfC4 2 (some 10)).nrows = dfC4.nrows) :=
  ⟨by decide, by decide, C10_preserves_rows dfC4 [2, 3, 4] 2 10 (by decide) (by decide)⟩

/-- **C6 counterexample.** `moving_averages(df, 0, window_size=1)` is *not*
equal to the input table: every column is renamed with the `_mean1` suffix
(the values are unchanged, see the amended theorem). -/
theorem C6_counterexample : moving_averages dfC6 0 (some 1) ≠ dfC6 := by
  intro h
  have h2 := congrArg (fun d => d.cols.map Prod.fst) h
  simp only [moving_averages_cols] at h2
  simp [dfC6] at h2
  exact absurd h2 (by decide)

/-- **C6 amended.** `moving_averages(df, 0, window_size=1)` returns the input
table's values unchanged (shift by zero is the identity and a rolling mean of
window 1 with `min_periods=1` maps every cell to itself, `NaN` included), but
with every column renamed by appending `_mean1`. -/
theorem C6_amended_identity_values (df : DataFrame) :
    moving_averages df 0 (some 1) = ⟨df.cols.map (fun c => (c.1 ++ "_mean1", c.2))⟩ := by
  rw [DataFrame.mk.injEq, moving_averages_cols]
  apply List.map_congr_left
  intro c _
  rw [Option.getD_some]
  rw [shiftCol_zero, rollingMeanCol_one, String.append_assoc]
  rfl

/-- **C8.** When `window_size` is omitted, `moving_averages(df, start_step)`
uses the full row count of `df` as the window: it shifts by `start_step`,
then every output cell at position `i` is the mean of the non-null shifted
values at positions `0..i` (a cumulative average), null only when there is no
non-null observation; each column is renamed with suffix `_mean<row count>`. -/
theorem C8_default_window (df : DataFrame) (s : ℕ)
    (hwf : ∀ c ∈ df.cols, c.2.length = df.nrows) :
    moving_averages df s none = moving_averages df s (some df.nrows)
  ∧ (moving_averages df s none).cols.map Prod.fst
      = df.cols.map (fun c => c.1 ++ "_mean" ++ toString df.nrows)
  ∧ ∀ c ∈ df.cols,
      (c.1 ++ "_mean" ++ toString df.nrows,
        (List.range c.2.length).map (cumMeanAt (shiftCol s c.2)))
        ∈ (moving_averages df s none).cols := by
  refine ⟨rfl, ?_, ?_⟩
  · rw [moving_averages_cols]
    simp
  · intro c hc
    rw [moving_averages_cols]
    have hpair : (c.1 ++ "_mean" ++ toString df.nrows,
        (List.range c.2.length).map (cumMeanAt (shiftCol s c.2)))
      = (fun c => (c.1 ++ "_mean" ++ toString ((none : Option ℕ).getD df.nrows),
          rollingMeanCol ((none : Option ℕ).getD df.nrows) (shiftCol s c.2))) c := by
      simp only [Option.getD_none]
      rw [Prod.mk.injEq]
      refine ⟨rfl, ?_⟩
      rw [rollingMeanCol, length_shiftCol]
      apply List.map_congr_left
      intro i hi
      rw [List.mem_range] at hi
      have hlen : c.2.length = df.nrows := hwf c hc
      rw [cumMeanAt, rollingMeanCell]
      rw [show i + 1 - df.nrows = 0 by omega, List.drop_zero]
    rw [hpair]
    exact List.mem_map_of_mem _ hc

theorem C8_witness :
    (∀ c ∈ dfC8.cols, c.2.length = dfC8.nrows)
  ∧ (moving_averages dfC8 5 none = moving_averages dfC8 5 (some dfC8.nrows)
     ∧ (moving_averages dfC8 5 none).cols.map Prod.fst
         = dfC8.cols.map (fun c => c.1 ++ "_mean" ++ toString dfC8.nrows)
     ∧ ∀ c ∈ dfC8.cols,
         (c.1 ++ "_mean" ++ toString dfC8.nrows,
           (List.range c.2.length).map (cumMeanAt (shiftCol 5 c.2)))
           ∈ (moving_averages dfC8 5 none).cols) :=
  ⟨by decide, C8_default_window dfC8 5 (by decide)⟩

theorem weekday_lt_seven (d : PyDate) : d.weekday < 7 := by
  rw [PyDate.weekday]
  have h0 := Int.emod_nonneg (toOrdinal d + 6) (by norm_num : (7 : ℤ) ≠ 0)
  have h1 := Int.emod_lt_of_pos (toOrdinal d + 6) (by norm_num : (0 : ℤ) < 7)
  omega

theorem daysInMonth_le_31 (y : ℤ) (m : ℕ) : daysInMonth y m ≤ 31 := by
  have hmem : ∀ x ∈ monthDays y, x ≤ 31 := by
    intro x hx
    rw [monthDays] at hx
    cases h : isLeapYear y <;> rw [h] at hx <;> simp at hx <;> omega
  rw [daysInMonth, List.getD_eq_getElem?_getD]
  rcases hg : (monthDays y)[m - 1]? with _ | x
  · simp
  · have hx := hmem x (List.getElem?_mem hg)
    simpa using hx

/-- **C5.** For every valid date, `week_of_month` is between 1 and 6, and it
is monotonically non-decreasing in the day within a fixed month.  The Lean
function is total on `PyDate` and is a pure function of its argument, which
models "pure function, no side effects, total over any valid date". -/
theorem C5_week_of_month_bounds (d e : PyDate) (hd : d.Valid) (he : e.Valid)
    (hy : d.year = e.year) (hm : d.month = e.month) (hde : d.day ≤ e.day) :
    1 ≤ week_of_month d ∧ week_of_month d ≤ 6 ∧ week_of_month d ≤ week_of_month e := by
  obtain ⟨hy1, hm1, hm12, hd1, hdle⟩ := hd
  have hday31 : d.day ≤ 31 := hdle.trans (daysInMonth_le_31 _ _)
  have hw : ({ d with day := 1 } : PyDate).weekday < 7 := weekday_lt_seven _
  have hfirst : ({ d with day := 1 } : PyDate) = { e with day := 1 } := by
    cases d
    cases e
    simp_all
  have h1 : week_of_month d = (d.day + ({ d with day := 1 } : PyDate).weekday + 6) / 7 := rfl
  have h2 : week_of_month e = (e.day + ({ e with day := 1 } : PyDate).weekday + 6) / 7 := rfl
  rw [h1, h2, ← hfirst]
  refine ⟨?_, ?_, ?_⟩ <;> omega

theorem C5_witness :
    (PyDate.mk 2020 2 3).Valid ∧ (PyDate.mk 2020 2 20).Valid
  ∧ (PyDate.mk 2020 2 3).year = (PyDate.mk 2020 2 20).year
  ∧ (PyDate.mk 2020 2 3).month = (PyDate.mk 2020 2 20).month
  ∧ (PyDate.mk 2020 2 3).day ≤ (PyDate.mk 2020 2 20).day
  ∧ (1 ≤ week_of_month (PyDate.mk 2020 2 3) ∧ week_of_month (PyDate.mk 2020 2 3) ≤ 6
      ∧ week_of_month (PyDate.mk 2020 2 3) ≤ week_of_month (PyDate.mk 2020 2 20)) :=
  ⟨by decide, by decide, rfl, rfl, by decide,
    C5_week_of_month_bounds (PyDate.mk 2020 2 3) (PyDate.mk 2020 2 20)
      (by decide) (by decide) rfl rfl (by decide)⟩

/-! ### Helper lemmas about the per-round pipeline -/

theorem filter_key_length_le_one {α : Type} (f : α → ℤ × ℤ × ℤ) (l : List α)
    (h : (l.map f).Nodup) (k : ℤ × ℤ × ℤ) :
    (l.filter (fun x => decide (f x = k))).length ≤ 1 := by
  induction l with
  | nil => simp
  | cons a l ih =>
    rw [List.map_cons, List.nodup_cons] at h
    by_cases hk : f a = k
    · rw [List.filter_cons_of_pos (by simpa using hk)]
      have hnil : l.filter (fun x => decide (f x = k)) = [] := by
        rw [List.filter_eq_nil_iff]
        intro x hx
        simp only [decide_eq_true_eq]
        intro hfx
        exact h.1 (by rw [hk, ← hfx]; exact List.mem_map_of_mem f hx)
      simp [hnil]
    · rw [List.filter_cons_of_neg (by simpa using hk)]
      exact ih h.2

theorem mergeRight_eq_map (train : List TrainRow) (aux : List AuxRow)
    (htrain : (train.map trainKey).Nodup) :
    mergeRight train aux = aux.map (mergeRowFn train) := by
  induction aux with
  | nil => rfl
  | cons a as ih =>
    have hstep : mergeRight train (a :: as)
        = (match train.filter (fun t => decide (trainKey t = auxKey a)) with
           | [] => [unmatchedAux a]
           | t :: ts => (t :: ts).map (fun t => matchRow t a)) ++ mergeRight train as := by
      rw [mergeRight, mergeRight, List.flatMap_cons]
    rw [hstep, ih, List.map_cons]
    have hle := filter_key_length_le_one trainKey train htrain (auxKey a)
    rw [mergeRowFn]
    rcases hf : train.filter (fun t => decide (trainKey t = auxKey a)) with _ | ⟨t, ts⟩
    · rfl
    · have hts : ts = [] := by
        rw [hf] at hle
        simpa using hle
      subst hts
      rfl

theorem keyOf_mergeRowFn (train : List TrainRow) (a : AuxRow) :
    keyOf (mergeRowFn train a) = auxKey a := by
  rw [mergeRowFn]
  rcases hf : train.filter (fun t => decide (trainKey t = auxKey a)) with _ | ⟨t, ts⟩ <;> rfl

theorem map_keyOf_mergeRight (train : List TrainRow) (aux : List AuxRow)
    (htrain : (train.map trainKey).Nodup) :
    (mergeRight train aux).map keyOf = aux.map auxKey := by
  rw [mergeRight_eq_map train aux htrain, List.map_map]
  apply List.map_congr_left
  intro a _
  exact keyOf_mergeRowFn train a

theorem gridExpand_eq_map (grid : List (ℤ × ℤ × ℤ)) (all : List MergedRow)
    (hall : (all.map keyOf).Nodup) :
    gridExpand grid all = grid.map (cellRow all) := by
  induction grid with
  | nil => rfl
  | cons c cs ih =>
    have hstep : gridExpand (c :: cs) all
        = (match all.filter (fun r => decide (keyOf r = c)) with
           | [] => [emptyRow c.1 c.2.1 c.2.2]
           | r :: rs => r :: rs) ++ gridExpand cs all := by
      rw [gridExpand, gridExpand, List.flatMap_cons]
    rw [hstep, ih, List.map_cons]
    have hle := filter_key_length_le_one keyOf all hall c
    rw [cellRow]
    rcases hf : all.filter (fun r => decide (keyOf r = c)) with _ | ⟨r, rs⟩
    · rfl
    · have hrs : rs = [] := by
        rw [hf] at hle
        simpa using hle
      subst hrs
      rfl

theorem keyOf_cellRow (all : List MergedRow) (c : ℤ × ℤ × ℤ) :
    keyOf (cellRow all c) = c := by
  rw [cellRow]
  rcases hf : all.filter (fun r => decide (keyOf r = c)) with _ | ⟨r, rs⟩
  · rfl
  · have hr : r ∈ all.filter (fun r => decide (keyOf r = c)) := by
      rw [hf]
      exact List.mem_cons_self r rs
    have hrc := List.mem_filter.mp hr
    simpa using hrc.2

theorem mem_uniqueAux (l : List ℤ) (x : ℤ) : ∀ seen : List ℤ,
    (x ∈ uniqueAux l seen ↔ x ∈ l ∧ x ∉ seen) := by
  induction l with
  | nil => intro seen; simp [uniqueAux]
  | cons a l ih =>
    intro seen
    rw [uniqueAux]
    by_cases ha : a ∈ seen
    · rw [if_pos ha, ih seen]
      constructor
      · rintro ⟨hx, hs⟩
        exact ⟨List.mem_cons_of_mem a hx, hs⟩
      · rintro ⟨hx, hs⟩
        rcases List.mem_cons.mp hx with rfl | hxl
        · exact absurd ha hs
        · exact ⟨hxl, hs⟩
    · rw [if_neg ha]
      rw [List.mem_cons, ih (a :: seen)]
      constructor
      · rintro (rfl | ⟨hx, hs⟩)
        · exact ⟨List.mem_cons_self x l, ha⟩
        · exact ⟨List.mem_cons_of_mem a hx, fun hxs => hs (List.mem_cons_of_mem a hxs)⟩
      · rintro ⟨hx, hs⟩
        by_cases hxa : x = a
        · exact Or.inl hxa
        · rcases List.mem_cons.mp hx with rfl | hxl
          · exact Or.inl rfl
          · refine Or.inr ⟨hxl, ?_⟩
            intro hxs
            rcases List.mem_cons.mp hxs with h1 | h2
            · exact hxa h1
            · exact hs h2

theorem nodup_uniqueAux (l : List ℤ) : ∀ seen : List ℤ, (uniqueAux l seen).Nodup := by
  induction l with
  | nil => intro seen; simp [uniqueAux]
  | cons a l ih =>
    intro seen
    rw [uniqueAux]
    by_cases ha : a ∈ seen
    · rw [if_pos ha]
      exact ih seen
    · rw [if_neg ha]
      rw [List.nodup_cons]
      refine ⟨?_, ih (a :: seen)⟩
      intro hmem
      rw [mem_uniqueAux] at hmem
      exact hmem.2 (List.mem_cons_self a seen)

theorem nodup_uniqueList (l : List ℤ) : (uniqueList l).Nodup := nodup_uniqueAux l []

theorem nodup_weekRange (sw ew : ℤ) : (weekRange sw ew).Nodup := by
  rw [weekRange]
  have hinj : Function.Injective (fun i : ℕ => sw + (i : ℤ)) := by
    intro i j hij
    have hcast : (i : ℤ) = j := by simpa using hij
    exact_mod_cast hcast
  exact (List.nodup_range _).map hinj

theorem itemList_eq_product (ss bs ws : List ℤ) :
    itemList ss bs ws = ss ×ˢ bs ×ˢ ws := by
  rw [itemList]
  simp only [SProd.sprod, List.product, List.map_flatMap, List.map_map, Function.comp_def]

theorem length_itemList (ss bs ws : List ℤ) :
    (itemList ss bs ws).length = ss.length * bs.length * ws.length := by
  rw [itemList_eq_product]
  simp [List.length_product, Nat.mul_assoc]

theorem nodup_itemList (ss bs ws : List ℤ)
    (hs : ss.Nodup) (hb : bs.Nodup) (hw : ws.Nodup) : (itemList ss bs ws).Nodup := by
  rw [itemList_eq_product]
  exact hs.product (hb.product hw)

theorem filter_eq_singleton_of_nodup {l : List (ℤ × ℤ × ℤ)} (hl : l.Nodup)
    {c : ℤ × ℤ × ℤ} (hc : c ∈ l) : l.filter (fun x => decide (x = c)) = [c] := by
  induction l with
  | nil => cases hc
  | cons a l ih =>
    rw [List.nodup_cons] at hl
    rcases List.mem_cons.mp hc with rfl | hcl
    · rw [List.filter_cons_of_pos (by simp)]
      have hnil : l.filter (fun x => decide (x = c)) = [] := by
        rw [List.filter_eq_nil_iff]
        intro x hx
        simp only [decide_eq_true_eq]
        rintro rfl
        exact hl.1 hx
      rw [hnil]
    · rw [List.filter_cons_of_neg ?_]
      · exact ih hl.2 hcl
      · simp only [decide_eq_true_eq]
        rintro rfl
        exact hl.1 hcl

theorem filter_gridExpand_eq (grid : List (ℤ × ℤ × ℤ)) (all : List MergedRow)
    (hall : (all.map keyOf).Nodup) (hg : grid.Nodup) (c : ℤ × ℤ × ℤ) (hc : c ∈ grid) :
    (gridExpand grid all).filter (fun r => decide (keyOf r = c)) = [cellRow all c] := by
  rw [gridExpand_eq_map grid all hall, List.filter_map]
  have hcongr : grid.filter ((fun r => decide (keyOf r = c)) ∘ cellRow all)
      = grid.filter (fun x => decide (x = c)) := by
    apply List.filter_congr
    intro x _
    simp [Function.comp, keyOf_cellRow]
  rw [hcongr, filter_eq_singleton_of_nodup hg hc]
  rfl

theorem cellRow_of_no_match (all : List MergedRow) (c : ℤ × ℤ × ℤ)
    (h : ∀ r ∈ all, keyOf r ≠ c) : cellRow all c = emptyRow c.1 c.2.1 c.2.2 := by
  rw [cellRow]
  have hf : all.filter (fun r => decide (keyOf r = c)) = [] := by
    rw [List.filter_eq_nil_iff]
    intro r hr
    simpa using h r hr
  rw [hf]

/-- **C1.** For a round whose train and aux tables have unique
`(store, brand, week)` keys, grid expansion produces exactly
|distinct stores| × |distinct brands| × |weeks in range| rows — exactly one
row per grid cell, however many original rows existed — and a cell with no
sales/aux data gets the all-null row. -/
theorem C1_grid_expansion (train : List TrainRow) (aux : List AuxRow) (sw ew : ℤ)
    (htrain : (train.map trainKey).Nodup) (haux : (aux.map auxKey).Nodup) :
    (expandRound train aux sw ew).length
        = (storesOf (mergeRight train aux)).length * (brandsOf (mergeRight train aux)).length
          * (weekRange sw ew).length
  ∧ (∀ c ∈ gridOf train aux sw ew,
      ((expandRound train aux sw ew).filter (fun r => decide (keyOf r = c))).length = 1)
  ∧ (∀ c ∈ gridOf train aux sw ew, (∀ r ∈ mergeRight train aux, keyOf r ≠ c) →
      (expandRound train aux sw ew).filter (fun r => decide (keyOf r = c))
        = [emptyRow c.1 c.2.1 c.2.2]) := by
  have hall : ((mergeRight train aux).map keyOf).Nodup := by
    rw [map_keyOf_mergeRight train aux htrain]
    exact haux
  have hgnodup : (gridOf train aux sw ew).Nodup :=
    nodup_itemList _ _ _ (nodup_uniqueList _) (nodup_uniqueList _) (nodup_weekRange _ _)
  refine ⟨?_, ?_, ?_⟩
  · rw [expandRound, gridExpand_eq_map _ _ hall, List.length_map, gridOf, length_itemList]
  · intro c hc
    rw [expandRound, filter_gridExpand_eq _ _ hall hgnodup c hc]
    rfl
  · intro c hc hnone
    rw [expandRound, filter_gridExpand_eq _ _ hall hgnodup c hc,
      cellRow_of_no_match _ _ hnone]

theorem C1_witness :
    ((trainC1.map trainKey).Nodup ∧ (auxC1.map auxKey).Nodup)
  ∧ (expandRound trainC1 auxC1 1 3).length
      = (storesOf (mergeRight trainC1 auxC1)).length
        * (brandsOf (mergeRight trainC1 auxC1)).length * (weekRange 1 3).length
  ∧ (expandRound trainC1 auxC1 1 3).length = 6
  ∧ ((expandRound trainC1 auxC1 1 3).filter (fun r => decide (r.move = none))).length = 4 :=
  ⟨⟨by decide, by decide⟩, (C1_grid_expansion trainC1 auxC1 1 3 (by decide) (by decide)).1,
    by decide, by decide⟩

/-! ### The forward/backward fill of the `move` column -/

theorem lastSome_nil : lastSome [] = none := rfl

theorem firstSome_nil : firstSome [] = none := rfl

theorem firstSome_cons (a : Option ℚ) (m : List (Option ℚ)) :
    firstSome (a :: m) = a.or (firstSome m) := by
  cases a with
  | none => simp [firstSome, List.filterMap_cons, Option.none_or]
  | some v => simp [firstSome, List.filterMap_cons]

theorem lastSome_cons (x : Option ℚ) (u : List (Option ℚ)) :
    lastSome (x :: u) = (lastSome u).or x := by
  cases x with
  | none => simp [lastSome, List.filterMap_cons, Option.or_none]
  | some v =>
    rw [lastSome, lastSome]
    simp only [List.filterMap_cons, id_eq]
    cases hw : u.filterMap id with
    | nil => rfl
    | cons y ys =>
      rw [List.getLast?_cons_cons]
      cases hg : (y :: ys).getLast? with
      | none =>
        rw [List.getLast?_eq_none_iff] at hg
        cases hg
      | some z => rfl

theorem length_ffillAux (l : List (Option ℚ)) (acc : Option ℚ) :
    (ffillAux l acc).length = l.length := by
  induction l generalizing acc with
  | nil => rfl
  | cons x t ih => simp [ffillAux, ih]

theorem getElem?_ffillAux (l : List (Option ℚ)) : ∀ (acc : Option ℚ) (i : ℕ),
    i < l.length →
    (ffillAux l acc)[i]? = some ((lastSome (l.take (i + 1))).or acc) := by
  induction l with
  | nil =>
    intro acc i hi
    simp at hi
  | cons x t ih =>
    intro acc i hi
    cases i with
    | zero =>
      rw [ffillAux, List.getElem?_cons_zero]
      rw [List.take_succ_cons, List.take_zero, lastSome_cons, lastSome_nil, Option.none_or]
    | succ j =>
      rw [ffillAux, List.getElem?_cons_succ]
      rw [ih (x.or acc) j (by simpa using hi)]
      rw [List.take_succ_cons, lastSome_cons, Option.or_assoc]

theorem lastSome_reverse (w : List (Option ℚ)) : lastSome w.reverse = firstSome w := by
  rw [lastSome, firstSome, List.filterMap_reverse, List.getLast?_reverse]

theorem getElem?_bfillCol (m : List (Option ℚ)) (i : ℕ) (hi : i < m.length) :
    (bfillCol m)[i]? = some (firstSome (m.drop i)) := by
  rw [bfillCol]
  have hlen : (ffillAux m.reverse none).length = m.length := by
    rw [length_ffillAux, List.length_reverse]
  rw [List.getElem?_reverse (by omega)]
  rw [hlen]
  rw [getElem?_ffillAux m.reverse none (m.length - 1 - i)
    (by rw [List.length_reverse]; omega)]
  rw [Option.or_none]
  congr 1
  rw [show m.length - 1 - i + 1 = m.length - i by omega]
  rw [List.take_reverse]
  rw [show m.length - (m.length - i) = i by omega]
  exact lastSome_reverse (m.drop i)

theorem firstSome_drop_ffillAux (l : List (Option ℚ)) : ∀ (acc : Option ℚ) (i : ℕ),
    i < l.length →
    firstSome ((ffillAux l acc).drop i)
      = ((lastSome (l.take (i + 1))).or acc).or (firstSome (l.drop (i + 1))) := by
  induction l with
  | nil =>
    intro acc i hi
    simp at hi
  | cons x t ih =>
    intro acc i hi
    cases i with
    | zero =>
      rw [ffillAux, List.drop_zero, firstSome_cons]
      cases t with
      | nil =>
        rw [show ffillAux [] (x.or acc) = [] from rfl, firstSome_nil, Option.or_none]
        rw [List.take_succ_cons, List.take_zero, lastSome_cons, lastSome_nil, Option.none_or]
        rw [List.drop_succ_cons, List.drop_zero, firstSome_nil, Option.or_none]
      | cons z t' =>
        have hih := ih (x.or acc) 0 (by simp)
        rw [List.drop_zero] at hih
        rw [hih]
        rw [List.take_succ_cons, List.take_zero, List.drop_succ_cons, List.drop_zero]
        rw [List.take_succ_cons, List.take_zero, List.drop_succ_cons, List.drop_zero]
        rw [lastSome_cons, lastSome_nil, Option.none_or]
        rw [lastSome_cons, lastSome_nil, Option.none_or]
        rw [firstSome_cons]
        cases x.or acc with
        | none => simp [Option.none_or, Option.or_none]
        | some v => rfl
    | succ j =>
      rw [ffillAux, List.drop_succ_cons]
      rw [ih (x.or acc) j (by simpa using hi)]
      rw [List.take_succ_cons, List.drop_succ_cons, lastSome_cons]
      simp [Option.or_assoc]

theorem getElem?_fillMove (l : List (Option ℚ)) (i : ℕ) (hi : i < l.length) :
    (fillMove l)[i]? = some ((lastSome (l.take (i + 1))).or (firstSome (l.drop (i + 1)))) := by
  rw [fillMove]
  have hlen : (ffillCol l).length = l.length := length_ffillAux l none
  rw [getElem?_bfillCol _ _ (by omega)]
  congr 1
  have hD := firstSome_drop_ffillAux l none i hi
  rw [ffillCol, hD, Option.or_none]

/-- **C2 counterexample.** In the pipeline the fill of the `move` column is
*not* per `(store, brand)` group: the script applies
`fillna(ffill).fillna(bfill)` to the whole sorted column before any
`groupby`.  Concretely (one brand, stores 1 and 2, week 1, sales only for
store 1): the sorted row 1 belongs to store 2 and has null `move`, its
filled value is 5, yet no row of group (store 2, brand 1) has `move = 5` —
the value leaked from store 1's group. -/
theorem C2_counterexample :
    (sortedRound trainC2 auxC2 1 1)[1]?
      = some ⟨2, 1, 1, none, none, none, some onesPrices, some 0, some 0⟩
  ∧ (filledMoveOf trainC2 auxC2 1 1)[1]? = some (some 5)
  ∧ ∀ r ∈ sortedRound trainC2 auxC2 1 1,
      (r.store = 2 ∧ r.brand = 1) → r.move ≠ some 5 :=
  ⟨by decide, by decide, by decide⟩

/-- **C2 amended.** Before the lag and moving-average features the `move`
column is forward- then backward-filled *globally* over the table sorted by
(store, brand, week): the filled value at row `i` is the last non-null
`move` at positions `≤ i` of the whole column, regardless of group, and
otherwise the first non-null `move` after `i`. -/
theorem C2_amended_global_fill (train : List TrainRow) (aux : List AuxRow) (sw ew : ℤ)
    (i : ℕ) (hi : i < (sortedRound train aux sw ew).length) :
    (filledMoveOf train aux sw ew)[i]?
      = some ((lastSome (((sortedRound train aux sw ew).map (·.move)).take (i + 1))).or
              (firstSome (((sortedRound train aux sw ew).map (·.move)).drop (i + 1)))) := by
  rw [filledMoveOf]
  exact getElem?_fillMove _ i (by simpa using hi)

theorem C2_witness :
    1 < (sortedRound trainC2 auxC2 1 1).length
  ∧ (filledMoveOf trainC2 auxC2 1 1)[1]?
      = some ((lastSome (((sortedRound trainC2 auxC2 1 1).map (·.move)).take 2)).or
              (firstSome (((sortedRound trainC2 auxC2 1 1).map (·.move)).drop 2))) :=
  ⟨by decide, C2_amended_global_fill trainC2 auxC2 1 1 1 (by decide)⟩

/-- **C3 counterexample.** The written frame has three columns the claim
does not list: the script assigns `year`, `month` and `day` (lines 117–119)
and never drops them, so they are written to the CSV. -/
theorem C3_counterexample :
    outputColumns ≠ claimedColumns
  ∧ "year" ∈ outputColumns ∧ "month" ∈ outputColumns ∧ "day" ∈ outputColumns
  ∧ "year" ∉ claimedColumns ∧ "month" ∉ claimedColumns ∧ "day" ∉ claimedColumns :=
  ⟨by decide, by decide, by decide, by decide, by decide, by decide, by decide⟩

/-- **C3 amended.** The output CSV has exactly the claimed columns plus
`year`, `month`, `day`, inserted between `week_of_month` and `move_lag2`
(the position where the script assigns them). -/
theorem C3_amended_output_columns :
    outputColumns
      = claimedColumns.take 24 ++ ["year", "month", "day"] ++ claimedColumns.drop 24 := by
  decide

/-! ### Provenance of expanded rows, for the price-feature claims -/

theorem mem_gridExpand (grid : List (ℤ × ℤ × ℤ)) (all : List MergedRow) (r : MergedRow)
    (hr : r ∈ gridExpand grid all) :
    r ∈ all ∨ ∃ c ∈ grid, r = emptyRow c.1 c.2.1 c.2.2 := by
  rw [gridExpand, List.mem_flatMap] at hr
  obtain ⟨c, hc, hrc⟩ := hr
  cases hf : all.filter (fun x => decide (keyOf x = c)) with
  | nil =>
    rw [hf] at hrc
    right
    have hrc' : r ∈ [emptyRow c.1 c.2.1 c.2.2] := hrc
    rw [List.mem_singleton] at hrc'
    exact ⟨c, hc, hrc'⟩
  | cons x xs =>
    rw [hf] at hrc
    left
    have hmem : r ∈ all.filter (fun x => decide (keyOf x = c)) := by
      rw [hf]
      exact hrc
    exact (List.mem_filter.mp hmem).1

theorem mem_mergeRight (train : List TrainRow) (aux : List AuxRow) (r : MergedRow)
    (hr : r ∈ mergeRight train aux) :
    ∃ a ∈ aux, r.prices = some a.prices ∧ r.brand = a.brand := by
  rw [mergeRight, List.mem_flatMap] at hr
  obtain ⟨a, ha, hra⟩ := hr
  refine ⟨a, ha, ?_⟩
  cases hf : train.filter (fun t => decide (trainKey t = auxKey a)) with
  | nil =>
    rw [hf] at hra
    have hra' : r ∈ [unmatchedAux a] := hra
    rw [List.mem_singleton] at hra'
    subst hra'
    exact ⟨rfl, rfl⟩
  | cons t ts =>
    rw [hf] at hra
    have hra' : r ∈ (t :: ts).map (fun t => matchRow t a) := hra
    rw [List.mem_map] at hra'
    obtain ⟨t', _, rfl⟩ := hra'
    exact ⟨rfl, rfl⟩

/-- **C7 amended.** In the expanded per-round table (aux rows carrying
eleven prices and brands 1..11), every row either has no aux data — then
`price` and `price_ratio` are null but `avg_price` is `0`, not the claimed
null/average — or carries its aux row's eleven prices, and then `avg_price`
is their sum divided by 11 (the true average), `price` is the price column
selected by the row's brand, and `price_ratio` is `price / avg_price`. -/
theorem C7_amended_price_features (train : List TrainRow) (aux : List AuxRow) (sw ew : ℤ)
    (h11 : ∀ a ∈ aux, a.prices.length = priceColNames.length)
    (hbr : ∀ a ∈ aux, 1 ≤ a.brand ∧ a.brand ≤ 11) :
    ∀ r ∈ expandRound train aux sw ew,
      (r.prices = none ∧ rowPrice r = none ∧ rowAvgPrice r = 0 ∧ rowPriceRatioVal r = none)
    ∨ (∃ ps, r.prices = some ps ∧ ps.length = priceColNames.length
        ∧ rowAvgPrice r = ps.sum / (priceColNames.length : ℚ)
        ∧ some (rowAvgPrice r) = specAvgPrice r
        ∧ 1 ≤ r.brand ∧ r.brand ≤ 11
        ∧ rowPrice r = ps[(r.brand - 1).toNat]?
        ∧ ∀ p, rowPrice r = some p → rowPriceRatioVal r = some (p / rowAvgPrice r)) := by
  intro r hr
  rcases mem_gridExpand _ _ _ hr with hmem | ⟨c, _, rfl⟩
  · obtain ⟨a, ha, hp, hb⟩ := mem_mergeRight _ _ _ hmem
    right
    refine ⟨a.prices, hp, h11 a ha, ?_, ?_, ?_, ?_, ?_, ?_⟩
    · rw [rowAvgPrice, rowPriceSum, hp, Option.getD_some]
    · rw [specAvgPrice, hp, Option.map_some']
      congr 1
      rw [rowAvgPrice, rowPriceSum, hp, Option.getD_some, h11 a ha]
    · rw [hb]
      exact (hbr a ha).1
    · rw [hb]
      exact (hbr a ha).2
    · rw [rowPrice, hp]
      rfl
    · intro p hpp
      rw [rowPriceRatioVal, hpp]
      rfl
  · left
    refine ⟨rfl, rfl, ?_, rfl⟩
    rw [rowAvgPrice, rowPriceSum]
    simp
    exact Or.inl rfl

/-- **C7 counterexample.** A grid row with no aux data (here `(1, 1, 2)`)
has all-null price columns; its "average of the eleven price columns" is
undefined (null), yet the computed `avg_price` is the number `0`: pandas
`sum(axis=1)` over an all-null row yields `0`, which is then divided by 11.
So the claim fails on the expanded table's no-data rows. -/
theorem C7_counterexample :
    emptyRow 1 1 2 ∈ expandRound trainC7 auxC7 1 2
  ∧ specAvgPrice (emptyRow 1 1 2) = none
  ∧ rowAvgPrice (emptyRow 1 1 2) = 0 := by
  refine ⟨by decide, rfl, ?_⟩
  rw [rowAvgPrice, rowPriceSum]
  simp
  exact Or.inl rfl

theorem C7_witness :
    (∀ a ∈ auxC7, a.prices.length = priceColNames.length)
  ∧ (∀ a ∈ auxC7, 1 ≤ a.brand ∧ a.brand ≤ 11)
  ∧ ∀ r ∈ expandRound trainC7 auxC7 1 2,
      (r.prices = none ∧ rowPrice r = none ∧ rowAvgPrice r = 0 ∧ rowPriceRatioVal r = none)
    ∨ (∃ ps, r.prices = some ps ∧ ps.length = priceColNames.length
        ∧ rowAvgPrice r = ps.sum / (priceColNames.length : ℚ)
        ∧ some (rowAvgPrice r) = specAvgPrice r
        ∧ 1 ≤ r.brand ∧ r.brand ≤ 11
        ∧ rowPrice r = ps[(r.brand - 1).toNat]?
        ∧ ∀ p, rowPrice r = some p → rowPriceRatioVal r = some (p / rowAvgPrice r)) :=
  ⟨by decide, by decide,
    C7_amended_price_features trainC7 auxC7 1 2 (by decide) (by decide)⟩

end OJ
